import Mathlib

/-!
Verification of the change-set engine of `akula` (historical state
change-log) and of the sentry status conversion.

The repository excerpt (`src/changeset/account.rs`) contains the account
change-set walker (`AccountChangeSetPlain::walk` / `::find`) and its
encoding test; the change-set model itself (`Change`, `ChangeSet::insert`,
`buckets::PlainAccountChangeSet::{encode, decode}`,
`storage_utils::walk`, `account_utils::find_in_account_changeset`,
`from_account_db_format`, `common::ADDRESS_LENGTH`) lives outside the
excerpt, so those definitions are modelled from the specification.
`src/sentry/eth.rs` contains `FullStatusData::try_from`, embedded
directly.

Bytes are modelled as lists of naturals; block numbers as naturals with
explicit `< 2 ^ 64` bounds where the `u64` width matters.
-/

namespace Akula

/-- Byte strings (`Bytes` in the source). -/
abbrev Bytes := List Nat

/-- Modelled from the spec: `common::ADDRESS_LENGTH`, the fixed width of an
account key ("exactly the address length for account change-sets"). -/
def ADDRESS_LENGTH : Nat := 20

/-- Modelled from the spec: a `Change` is "a single (key, prior-value)
pair". -/
structure Change where
  key : Bytes
  value : Bytes
deriving DecidableEq, Repr

/-- Strict lexicographic byte order, the sort order of the duplicate-sorted
store ("numeric order equals lexicographic byte order"). -/
def lexLt : Bytes → Bytes → Bool
  | _, [] => false
  | [], _ :: _ => true
  | a :: as, b :: bs => if a < b then true else if a = b then lexLt as bs else false

/-- Modelled from the spec: a `ChangeSet` is an "insertion-order-irrelevant,
key-sorted collection of Changes", kept here as a key-sorted list. -/
abbrev ChangeSet := List Change

/-- Modelled from the spec: `ChangeSet::insert` — keeps the collection
key-sorted and keys unique ("no two Changes in one ChangeSet may share a
key"); inserting an existing key replaces the previous Change. -/
def ChangeSet.insert : ChangeSet → Change → ChangeSet
  | [], c => [c]
  | x :: xs, c =>
    if lexLt c.key x.key then c :: x :: xs
    else if c.key = x.key then c :: xs
    else x :: ChangeSet.insert xs c

/-- A ChangeSet built by a sequence of `insert`s starting from the default
(empty) ChangeSet, as in the `account_encoding` test. -/
def changeSetOfList (l : List Change) : ChangeSet := l.foldl ChangeSet.insert []

/-- Fixed-width big-endian byte encoding of a natural number. -/
def beBytes : Nat → Nat → Bytes
  | 0, _ => []
  | w + 1, n => beBytes w (n / 256) ++ [n % 256]

/-- Big-endian byte decoding. -/
def beToNat (bs : Bytes) : Nat := bs.foldl (fun acc b => acc * 256 + b) 0

/-- Modelled from the spec: the `db_key` of an encoded record is the
"big-endian fixed-width block number" (8 bytes, a `u64`). -/
def dbKey (b : Nat) : Bytes := beBytes 8 b

/-- Modelled from the spec: `buckets::PlainAccountChangeSet::encode` — for
each Change one `(db_key, db_value)` pair, `db_value` being the embedded
key "immediately followed by the opaque prior-value payload". -/
def encode (b : Nat) (s : ChangeSet) : List (Bytes × Bytes) :=
  s.map (fun c => (dbKey b, c.key ++ c.value))

/-- The codec error taxonomy of the spec: `CorruptData` ("a stored record
cannot be decoded — wrong length"). -/
inductive DecodeError where
  | CorruptData
deriving DecidableEq, Repr

/-- Modelled from the spec: `from_account_db_format` /
`buckets::PlainAccountChangeSet::decode` — the inverse of `encode`; rejects
a malformed record (wrong fixed-width lengths) with `CorruptData`. -/
def from_account_db_format (dbK dbV : Bytes) : Except DecodeError (Nat × Bytes × Bytes) :=
  if dbK.length = 8 ∧ ADDRESS_LENGTH ≤ dbV.length then
    .ok (beToNat dbK, dbV.take ADDRESS_LENGTH, dbV.drop ADDRESS_LENGTH)
  else .error .CorruptData

/-! ### Lexicographic order lemmas -/

theorem lexLt_nil_right (l : Bytes) : lexLt l [] = false := by
  cases l <;> rfl

theorem lexLt_irrefl (l : Bytes) : lexLt l l = false := by
  induction l with
  | nil => rfl
  | cons a as ih => simp [lexLt, ih]

theorem lexLt_trans : ∀ {a b c : Bytes},
    lexLt a b = true → lexLt b c = true → lexLt a c = true := by
  intro a
  induction a with
  | nil =>
    intro b c hab hbc
    cases c with
    | nil => cases b <;> simp [lexLt] at hab hbc
    | cons y ys => rfl
  | cons x xs ih =>
    intro b c hab hbc
    cases b with
    | nil => simp [lexLt] at hab
    | cons y ys =>
      cases c with
      | nil => simp [lexLt] at hbc
      | cons z zs =>
        simp only [lexLt] at hab hbc ⊢
        by_cases hxy : x < y
        · by_cases hyz : y < z
          · simp [Nat.lt_trans hxy hyz]
          · simp [hyz] at hbc
            rcases hbc with ⟨hyz', _⟩
            subst hyz'
            simp [hxy]
        · simp [hxy] at hab
          rcases hab with ⟨hxy', hab'⟩
          subst hxy'
          by_cases hyz : x < z
          · simp [hyz]
          · simp [hyz] at hbc ⊢
            rcases hbc with ⟨hyz', hbc'⟩
            subst hyz'
            exact ⟨rfl, ih hab' hbc'⟩

theorem lexLt_asymm {a b : Bytes} (h : lexLt a b = true) : lexLt b a = false := by
  by_contra hc
  have hba : lexLt b a = true := by
    cases hab : lexLt b a
    · exact absurd hab hc
    · rfl
  have : lexLt a a = true := lexLt_trans h hba
  rw [lexLt_irrefl] at this
  exact Bool.false_ne_true this

theorem lexLt_total : ∀ {a b : Bytes}, a ≠ b → lexLt a b = false → lexLt b a = true := by
  intro a
  induction a with
  | nil =>
    intro b hne hab
    cases b with
    | nil => exact absurd rfl hne
    | cons y ys => simp [lexLt] at hab
  | cons x xs ih =>
    intro b hne hab
    cases b with
    | nil => rfl
    | cons y ys =>
      simp only [lexLt] at hab ⊢
      by_cases hxy : x < y
      · simp [hxy] at hab
      · by_cases hyx : y < x
        · simp [hyx]
        · have hxyeq : x = y := Nat.le_antisymm (Nat.le_of_not_lt hyx) (Nat.le_of_not_lt hxy)
          subst hxyeq
          simp only [lexLt_irrefl] at *
          simp [hxy] at hab
          have hne' : xs ≠ ys := fun h => hne (by rw [h])
          simp [ih hne' hab]

/-- On equal-length prefixes, a strict comparison is decided before either
list ends, so appending suffixes preserves it. -/
theorem lexLt_append_of_lt : ∀ {a b : Bytes}, a.length = b.length →
    lexLt a b = true → ∀ (t1 t2 : Bytes), lexLt (a ++ t1) (b ++ t2) = true := by
  intro a
  induction a with
  | nil =>
    intro b hlen hab t1 t2
    cases b with
    | nil => simp [lexLt_irrefl] at hab
    | cons y ys => simp at hlen
  | cons x xs ih =>
    intro b hlen hab t1 t2
    cases b with
    | nil => simp at hlen
    | cons y ys =>
      simp only [lexLt, List.cons_append] at hab ⊢
      by_cases hxy : x < y
      · simp [hxy]
      · simp [hxy] at hab
        rcases hab with ⟨hxyeq, hab'⟩
        subst hxyeq
        simp only [List.length_cons, Nat.add_right_cancel_iff] at hlen
        simp [hxy, ih hlen hab' t1 t2]

/-- On equal-length prefixes, a strict comparison the other way forces the
appended list to compare `false`. -/
theorem lexLt_append_of_gt : ∀ {a b : Bytes}, a.length = b.length →
    lexLt b a = true → ∀ (t : Bytes), lexLt (a ++ t) b = false := by
  intro a
  induction a with
  | nil =>
    intro b hlen hba t
    cases b with
    | nil => simp [lexLt_irrefl] at hba
    | cons y ys => simp at hlen
  | cons x xs ih =>
    intro b hlen hba t
    cases b with
    | nil => simp [lexLt_nil_right]
    | cons y ys =>
      simp only [lexLt, List.cons_append] at hba ⊢
      by_cases hyx : y < x
      · have hxy : ¬ x < y := Nat.lt_asymm hyx
        have hne : ¬ x = y := fun h => (by subst h; exact Nat.lt_irrefl _ hyx)
        simp [hxy, hne]
      · simp [hyx] at hba
        rcases hba with ⟨hyxeq, hba'⟩
        subst hyxeq
        simp only [List.length_cons, Nat.add_right_cancel_iff] at hlen
        simp [Nat.lt_irrefl, ih hlen hba' t]

/-- A list never compares strictly below one of its own prefixes. -/
theorem lexLt_append_self : ∀ (l t : Bytes), lexLt (l ++ t) l = false := by
  intro l
  induction l with
  | nil => intro t; exact lexLt_nil_right t
  | cons a as ih => intro t; simp [lexLt, ih]

theorem lexLt_append_same : ∀ (l t1 t2 : Bytes),
    lexLt (l ++ t1) (l ++ t2) = lexLt t1 t2 := by
  intro l
  induction l with
  | nil => intro t1 t2; rfl
  | cons a as ih => intro t1 t2; simp [lexLt, ih]

/-! ### Big-endian encoding lemmas -/

theorem beBytes_length (w n : Nat) : (beBytes w n).length = w := by
  induction w generalizing n with
  | zero => rfl
  | succ w ih => simp [beBytes, ih]

theorem beToNat_append_singleton (l : Bytes) (x : Nat) :
    beToNat (l ++ [x]) = beToNat l * 256 + x := by
  simp [beToNat, List.foldl_append]

theorem beToNat_beBytes (w n : Nat) (h : n < 2 ^ (8 * w)) :
    beToNat (beBytes w n) = n := by
  induction w generalizing n with
  | zero =>
    simp [Nat.pow_zero] at h
    simp [beBytes, beToNat, h]
  | succ w ih =>
    have hdiv : n / 256 < 2 ^ (8 * w) := by
      apply Nat.div_lt_of_lt_mul
      calc n < 2 ^ (8 * (w + 1)) := h
        _ = 256 * 2 ^ (8 * w) := by ring
    simp [beBytes, beToNat_append_singleton, ih (n / 256) hdiv]
    omega

theorem beBytes_lt {w b1 b2 : Nat} (hlt : b1 < b2) (hb : b2 < 2 ^ (8 * w)) :
    lexLt (beBytes w b1) (beBytes w b2) = true := by
  induction w generalizing b1 b2 with
  | zero =>
    simp [Nat.pow_zero] at hb
    omega
  | succ w ih =>
    have hb2 : b2 / 256 < 2 ^ (8 * w) := by
      apply Nat.div_lt_of_lt_mul
      calc b2 < 2 ^ (8 * (w + 1)) := hb
        _ = 256 * 2 ^ (8 * w) := by ring
    simp only [beBytes]
    rcases Nat.lt_or_ge (b1 / 256) (b2 / 256) with hdiv | hdiv
    · exact lexLt_append_of_lt (by simp [beBytes_length]) (ih hdiv hb2) _ _
    · have hdeq : b1 / 256 = b2 / 256 := by
        have h1 : b1 / 256 ≤ b2 / 256 := Nat.div_le_div_right (Nat.le_of_lt hlt)
        omega
      have hmod : b1 % 256 < b2 % 256 := by
        have e1 := Nat.div_add_mod b1 256
        have e2 := Nat.div_add_mod b2 256
        omega
      rw [hdeq, lexLt_append_same]
      simp [lexLt, hmod]

theorem dbKey_length (b : Nat) : (dbKey b).length = 8 := beBytes_length 8 b

theorem beToNat_dbKey {b : Nat} (hb : b < 2 ^ 64) : beToNat (dbKey b) = b :=
  beToNat_beBytes 8 b (by norm_num at hb ⊢; omega)

theorem dbKey_lt_iff {b1 b2 : Nat} (h1 : b1 < 2 ^ 64) (h2 : b2 < 2 ^ 64) :
    lexLt (dbKey b1) (dbKey b2) = decide (b1 < b2) := by
  rcases Nat.lt_trichotomy b1 b2 with h | h | h
  · simp [h, dbKey, beBytes_lt (w := 8) h (by norm_num at h2 ⊢; omega)]
  · subst h
    simp [lexLt_irrefl]
  · have : lexLt (dbKey b2) (dbKey b1) = true :=
      beBytes_lt (w := 8) h (by norm_num at h1 ⊢; omega)
    simp [lexLt_asymm this]
    omega

theorem dbKey_inj {b1 b2 : Nat} (h1 : b1 < 2 ^ 64) (h2 : b2 < 2 ^ 64)
    (h : dbKey b1 = dbKey b2) : b1 = b2 := by
  have := beToNat_dbKey h1
  rw [h, beToNat_dbKey h2] at this
  omega

/-- Decoding inverts encoding on a well-formed record. -/
theorem decode_encode {b : Nat} (hb : b < 2 ^ 64) {k : Bytes}
    (hk : k.length = ADDRESS_LENGTH) (v : Bytes) :
    from_account_db_format (dbKey b) (k ++ v) = .ok (b, k, v) := by
  have hlen : ADDRESS_LENGTH ≤ (k ++ v).length := by
    rw [List.length_append, hk]
    omega
  have htake : (k ++ v).take ADDRESS_LENGTH = k := by
    rw [← hk]; exact List.take_left k v
  have hdrop : (k ++ v).drop ADDRESS_LENGTH = v := by
    rw [← hk]; exact List.drop_left k v
  simp [from_account_db_format, dbKey_length, hlen, htake, hdrop, beToNat_dbKey hb, hk]

/-! ### ChangeSet canonical-form lemmas -/

/-- A ChangeSet is canonical when strictly sorted by key (the "key-sorted,
keys unique" invariant). -/
def canonical (s : ChangeSet) : Prop :=
  s.Pairwise (fun a b => lexLt a.key b.key = true)

instance canonical_decidable (s : ChangeSet) : Decidable (canonical s) := by
  unfold canonical
  infer_instance

theorem mem_insert_sub {s : ChangeSet} {c x : Change}
    (h : x ∈ ChangeSet.insert s c) : x = c ∨ x ∈ s := by
  induction s with
  | nil =>
    simp [ChangeSet.insert] at h
    exact Or.inl h
  | cons y ys ih =>
    simp only [ChangeSet.insert] at h
    by_cases h1 : lexLt c.key y.key
    · rw [if_pos h1] at h
      simp only [List.mem_cons] at h
      rcases h with h | h | h
      · exact Or.inl h
      · exact Or.inr (by simp [h])
      · exact Or.inr (by simp [h])
    · by_cases h2 : c.key = y.key
      · rw [if_neg h1, if_pos h2] at h
        simp only [List.mem_cons] at h
        rcases h with h | h
        · exact Or.inl h
        · exact Or.inr (by simp [h])
      · rw [if_neg h1, if_neg h2] at h
        simp only [List.mem_cons] at h
        rcases h with h | h
        · exact Or.inr (by simp [h])
        · rcases ih h with h' | h'
          · exact Or.inl h'
          · exact Or.inr (by simp [h'])

theorem mem_keys_insert {s : ChangeSet} {c : Change} {k : Bytes} :
    k ∈ (ChangeSet.insert s c).map Change.key ↔
      k = c.key ∨ k ∈ s.map Change.key := by
  induction s with
  | nil => simp [ChangeSet.insert]
  | cons y ys ih =>
    simp only [ChangeSet.insert]
    by_cases h1 : lexLt c.key y.key
    · rw [if_pos h1]
      simp
    · by_cases h2 : c.key = y.key
      · rw [if_neg h1, if_pos h2]
        simp only [List.map_cons, List.mem_cons]
        constructor
        · rintro (h | h)
          · exact Or.inl h
          · exact Or.inr (Or.inr h)
        · rintro (h | h | h)
          · exact Or.inl h
          · exact Or.inl (by rw [h, ← h2])
          · exact Or.inr h
      · rw [if_neg h1, if_neg h2]
        simp only [List.map_cons, List.mem_cons, ih]
        tauto

theorem insert_canonical {s : ChangeSet} (c : Change) (h : canonical s) :
    canonical (ChangeSet.insert s c) := by
  induction s with
  | nil => simp [ChangeSet.insert, canonical]
  | cons x xs ih =>
    simp only [canonical, List.pairwise_cons] at h
    rcases h with ⟨hx, hxs⟩
    simp only [ChangeSet.insert]
    by_cases h1 : lexLt c.key x.key
    · rw [if_pos h1]
      simp only [canonical, List.pairwise_cons]
      refine ⟨?_, hx, hxs⟩
      intro y hy
      rcases List.mem_cons.mp hy with hy | hy
      · rw [hy]; exact h1
      · exact lexLt_trans h1 (hx y hy)
    · by_cases h2 : c.key = x.key
      · rw [if_neg h1, if_pos h2]
        simp only [canonical, List.pairwise_cons]
        refine ⟨fun y hy => ?_, hxs⟩
        rw [h2]
        exact hx y hy
      · rw [if_neg h1, if_neg h2]
        have hxc : lexLt x.key c.key = true :=
          lexLt_total h2 (by simpa using h1)
        simp only [canonical, List.pairwise_cons]
        constructor
        · intro y hy
          rcases mem_insert_sub hy with hy' | hy'
          · rw [hy']; exact hxc
          · exact hx y hy'
        · exact ih hxs

theorem insert_perm_of_not_mem {s : ChangeSet} {c : Change}
    (h : c.key ∉ s.map Change.key) : (ChangeSet.insert s c).Perm (c :: s) := by
  induction s with
  | nil => simp [ChangeSet.insert]
  | cons x xs ih =>
    simp only [List.map_cons, List.mem_cons] at h
    push_neg at h
    rcases h with ⟨hne, hnm⟩
    simp only [ChangeSet.insert]
    by_cases h1 : lexLt c.key x.key
    · rw [if_pos h1]
    · rw [if_neg h1, if_neg hne]
      exact ((ih hnm).cons x).trans (List.Perm.swap c x xs)

theorem foldl_insert_perm : ∀ (l : List Change) (s : ChangeSet),
    ((s ++ l).map Change.key).Nodup →
    (List.foldl ChangeSet.insert s l).Perm (s ++ l) := by
  intro l
  induction l with
  | nil => intro s _; simp
  | cons c cs ih =>
    intro s hnd
    have hmemk : c.key ∉ s.map Change.key := by
      intro hk
      rw [List.map_append, List.nodup_append] at hnd
      rcases hnd with ⟨_, _, hdisj⟩
      exact hdisj hk (by simp)
    have hins : (ChangeSet.insert s c).Perm (c :: s) := insert_perm_of_not_mem hmemk
    have hkeys : ((ChangeSet.insert s c ++ cs).map Change.key).Nodup := by
      have hp : ((ChangeSet.insert s c ++ cs).map Change.key).Perm
          (((c :: s) ++ cs).map Change.key) :=
        List.Perm.map Change.key (List.Perm.append_right cs hins)
      rw [List.Perm.nodup_iff hp]
      have hp2 : (((c :: s) ++ cs).map Change.key).Perm
          ((s ++ c :: cs).map Change.key) := by
        apply List.Perm.map
        exact List.perm_middle.symm
      rw [List.Perm.nodup_iff hp2]
      exact hnd
    show (List.foldl ChangeSet.insert (ChangeSet.insert s c) cs).Perm (s ++ c :: cs)
    exact ((ih _ hkeys).trans (List.Perm.append_right cs hins)).trans
      List.perm_middle.symm

theorem changeSetOfList_perm {l : List Change}
    (h : (l.map Change.key).Nodup) : (changeSetOfList l).Perm l := by
  have := foldl_insert_perm l [] (by simpa using h)
  simpa [changeSetOfList] using this

theorem changeSetOfList_canonical (l : List Change) :
    canonical (changeSetOfList l) := by
  suffices h : ∀ s, canonical s → canonical (List.foldl ChangeSet.insert s l) by
    exact h [] (by simp [canonical])
  induction l with
  | nil => intro s hs; exact hs
  | cons c cs ih =>
    intro s hs
    exact ih _ (insert_canonical c hs)

theorem canonical_keys_nodup {s : ChangeSet} (h : canonical s) :
    (s.map Change.key).Nodup := by
  simp only [canonical] at h
  have hp : (s.map Change.key).Pairwise (fun a b => lexLt a b = true) :=
    List.pairwise_map.mpr h
  refine hp.imp ?_
  intro a b hab heq
  rw [heq, lexLt_irrefl] at hab
  exact Bool.false_ne_true hab

/-- Rebuilding a canonical ChangeSet by re-inserting its Changes gives it
back unchanged. -/
theorem changeSetOfList_of_canonical {s : ChangeSet} (h : canonical s) :
    changeSetOfList s = s := by
  have hnd := canonical_keys_nodup h
  have hperm := changeSetOfList_perm hnd
  have hs1 := changeSetOfList_canonical s
  haveI : IsAntisymm Change (fun a b => lexLt a.key b.key = true) := by
    constructor
    intro a b hab hba
    rw [lexLt_asymm hab] at hba
    exact absurd hba Bool.false_ne_true
  exact List.eq_of_perm_of_sorted hperm hs1 h

theorem keys_foldl_insert : ∀ (l : List Change) (s : ChangeSet) (k : Bytes),
    (k ∈ (List.foldl ChangeSet.insert s l).map Change.key ↔
      k ∈ s.map Change.key ∨ k ∈ l.map Change.key) := by
  intro l
  induction l with
  | nil => simp
  | cons c cs ih =>
    intro s k
    show k ∈ (List.foldl ChangeSet.insert (ChangeSet.insert s c) cs).map Change.key ↔ _
    rw [ih]
    simp only [mem_keys_insert, List.map_cons, List.mem_cons]
    tauto

theorem keys_changeSetOfList (l : List Change) (k : Bytes) :
    k ∈ (changeSetOfList l).map Change.key ↔ k ∈ l.map Change.key := by
  have := keys_foldl_insert l [] k
  simpa [changeSetOfList] using this

theorem mem_changeSetOfList_sub : ∀ {l : List Change} {c : Change},
    c ∈ changeSetOfList l → c ∈ l := by
  suffices h : ∀ (l : List Change) (s : ChangeSet) (c : Change),
      c ∈ List.foldl ChangeSet.insert s l → c ∈ s ∨ c ∈ l by
    intro l c hc
    rcases h l [] c hc with h' | h'
    · cases h'
    · exact h'
  intro l
  induction l with
  | nil => intro s c hc; exact Or.inl hc
  | cons x xs ih =>
    intro s c hc
    rcases ih _ c hc with h' | h'
    · rcases mem_insert_sub h' with h'' | h''
      · exact Or.inr (by simp [h''])
      · exact Or.inl h''
    · exact Or.inr (by simp [h'])

/-! ### The duplicate-sorted store, walker and point lookup -/

/-- The durable store contents after encoding the ChangeSet of each block in
block order ("pairs are written into the store inside the commit transaction of the block"). -/
def historyStore : List (Nat × ChangeSet) → List (Bytes × Bytes)
  | [] => []
  | e :: r => encode e.1 e.2 ++ historyStore r

/-- Effectful map over a list in the `Except` monad: decodes records one at
a time, aborting at the first failure (the propagation policy of the spec). -/
def exceptMapM {α β : Type} (f : α → Except DecodeError β) :
    List α → Except DecodeError (List β)
  | [] => .ok []
  | x :: xs =>
    match f x with
    | .error e => .error e
    | .ok y =>
      match exceptMapM f xs with
      | .error e => .error e
      | .ok ys => .ok (y :: ys)

/-- Modelled from the spec: the cursor positioning of `storage_utils::walk` —
"positions the cursor at the first record with db_key >= from …
stopping once block_number > to (inclusive range semantics)". -/
def selectRange (store : List (Bytes × Bytes)) (fromBlock toBlock : Nat) :
    List (Bytes × Bytes) :=
  (store.dropWhile (fun r => lexLt r.1 (dbKey fromBlock))).takeWhile
    (fun r => ! lexLt (dbKey toBlock) r.1)

/-- Modelled from the spec: `storage_utils::walk` instantiated with the
account decoder, as done by `AccountChangeSetPlain::walk`: every selected
record is decoded via the Bucket Codec, and a decode failure aborts the
whole traversal. -/
def walk (store : List (Bytes × Bytes)) (fromBlock toBlock : Nat) :
    Except DecodeError (List (Nat × Bytes × Bytes)) :=
  exceptMapM (fun r => from_account_db_format r.1 r.2)
    (selectRange store fromBlock toBlock)

/-- Decode one positioned duplicate entry and accept it only if its embedded
key equals the query key. -/
def checkEntry (blockNumber : Nat) (k v : Bytes) : Except DecodeError (Option Bytes) :=
  match from_account_db_format (dbKey blockNumber) v with
  | .error e => .error e
  | .ok (_, k1, val) => .ok (if k1 = k then some val else none)

/-- The in-group seek of the point lookup: positions at the first duplicate
`db_value >= key` (the seek-both-range of the dup-sort cursor), decodes it, and
accepts it only if its embedded key equals the query key. -/
def findInVals (blockNumber : Nat) (k : Bytes) (vals : List Bytes) :
    Except DecodeError (Option Bytes) :=
  match vals.dropWhile (fun v => lexLt v k) with
  | [] => .ok none
  | v :: _ => checkEntry blockNumber k v

/-- Modelled from the spec: `account_utils::find_in_account_changeset` —
"seeks to primary key block_number, then, within the duplicate group of that block, seeks to the entry whose embedded key equals key". -/
def find_in_account_changeset (store : List (Bytes × Bytes)) (blockNumber : Nat)
    (k : Bytes) : Except DecodeError (Option Bytes) :=
  findInVals blockNumber k
    ((store.filter (fun r => decide (r.1 = dbKey blockNumber))).map Prod.snd)

/-- Well-formed ChangeSet: canonical and with fixed-width account keys. -/
def wfChangeSet (s : ChangeSet) : Prop :=
  canonical s ∧ ∀ c ∈ s, c.key.length = ADDRESS_LENGTH

/-- Well-formed stored history: strictly increasing `u64` block numbers,
each with a well-formed ChangeSet. -/
def wfHistory (hist : List (Nat × ChangeSet)) : Prop :=
  hist.Pairwise (fun a b => a.1 < b.1) ∧
    ∀ e ∈ hist, e.1 < 2 ^ 64 ∧ wfChangeSet e.2

/-- The ChangeSet recorded at exactly a given block, if any. -/
def changeSetAt : List (Nat × ChangeSet) → Nat → Option ChangeSet
  | [], _ => none
  | e :: r, b => if e.1 = b then some e.2 else changeSetAt r b

/-- The description in the spec of `find`: "the value of the Change with key k
if and only if the ChangeSet recorded at exactly block b contains key k". -/
def find_spec_lookup (hist : List (Nat × ChangeSet)) (b : Nat) (k : Bytes) :
    Option Bytes :=
  match changeSetAt hist b with
  | none => none
  | some cs => (cs.find? (fun c => decide (c.key = k))).map Change.value

/-- The decoded records of a stored history, block group by block group. -/
def historyTriples : List (Nat × ChangeSet) → List (Nat × Bytes × Bytes)
  | [] => []
  | e :: r => e.2.map (fun c => (e.1, c.key, c.value)) ++ historyTriples r

/-! ### Traversal helper lemmas -/

theorem dropWhile_append_of_all {α : Type} {p : α → Bool} {l1 l2 : List α}
    (h : ∀ x ∈ l1, p x = true) :
    (l1 ++ l2).dropWhile p = l2.dropWhile p := by
  induction l1 with
  | nil => rfl
  | cons x xs ih =>
    rw [List.cons_append, List.dropWhile_cons, if_pos (h x (by simp))]
    exact ih (fun y hy => h y (by simp [hy]))

theorem dropWhile_eq_self_of_all {α : Type} {p : α → Bool} {l : List α}
    (h : ∀ x ∈ l, p x = false) : l.dropWhile p = l := by
  cases l with
  | nil => rfl
  | cons x xs =>
    rw [List.dropWhile_cons, if_neg (by simp [h x (by simp)])]

theorem takeWhile_append_of_all {α : Type} {p : α → Bool} {l1 l2 : List α}
    (h : ∀ x ∈ l1, p x = true) :
    (l1 ++ l2).takeWhile p = l1 ++ l2.takeWhile p := by
  induction l1 with
  | nil => rfl
  | cons x xs ih =>
    rw [List.cons_append, List.takeWhile_cons, if_pos (h x (by simp)),
      ih (fun y hy => h y (by simp [hy])), List.cons_append]

theorem takeWhile_eq_nil_of_all {α : Type} {p : α → Bool} {l : List α}
    (h : ∀ x ∈ l, p x = false) : l.takeWhile p = [] := by
  cases l with
  | nil => rfl
  | cons x xs =>
    rw [List.takeWhile_cons, if_neg (by simp [h x (by simp)])]

theorem exceptMapM_append {α β : Type} (f : α → Except DecodeError β)
    {l1 l2 : List α} {y1 y2 : List β}
    (h1 : exceptMapM f l1 = .ok y1) (h2 : exceptMapM f l2 = .ok y2) :
    exceptMapM f (l1 ++ l2) = .ok (y1 ++ y2) := by
  induction l1 generalizing y1 with
  | nil =>
    simp only [exceptMapM] at h1
    cases h1
    simpa using h2
  | cons x xs ih =>
    simp only [exceptMapM] at h1 ⊢
    cases hfx : f x with
    | error e => rw [hfx] at h1; cases h1
    | ok y =>
      rw [hfx] at h1
      cases hxs : exceptMapM f xs with
      | error e => rw [hxs] at h1; cases h1
      | ok ys =>
        rw [hxs] at h1
        cases h1
        rw [List.append_eq, ih hxs]
        rfl

theorem exceptMapM_error_of_mem {α β : Type} {f : α → Except DecodeError β}
    {l : List α} {x : α} (hx : x ∈ l) (he : f x = .error .CorruptData) :
    exceptMapM f l = .error .CorruptData := by
  induction l with
  | nil => cases hx
  | cons y ys ih =>
    rcases List.mem_cons.mp hx with h | h
    · subst h
      simp [exceptMapM, he]
    · cases hfy : f y with
      | error e =>
        cases e
        simp [exceptMapM, hfy]
      | ok z => simp [exceptMapM, hfy, ih h]

theorem exceptMapM_encode {b : Nat} (hb : b < 2 ^ 64) {cs : ChangeSet}
    (hlen : ∀ c ∈ cs, c.key.length = ADDRESS_LENGTH) :
    exceptMapM (fun r => from_account_db_format r.1 r.2) (encode b cs) =
      .ok (cs.map (fun c => (b, c.key, c.value))) := by
  induction cs with
  | nil => rfl
  | cons c cs ih =>
    have hc : from_account_db_format (dbKey b) (c.key ++ c.value) =
        .ok (b, c.key, c.value) :=
      decode_encode hb (hlen c (by simp)) c.value
    have ih' := ih (fun c' hc' => hlen c' (by simp [hc']))
    simp only [encode, List.map_cons] at ih' ⊢
    simp [exceptMapM, hc, ih']

theorem mem_historyStore {hist : List (Nat × ChangeSet)} {r : Bytes × Bytes}
    (h : r ∈ historyStore hist) :
    ∃ e ∈ hist, r.1 = dbKey e.1 ∧ ∃ c ∈ e.2, r.2 = c.key ++ c.value := by
  induction hist with
  | nil => cases h
  | cons e rest ih =>
    simp only [historyStore, List.mem_append] at h
    rcases h with h | h
    · refine ⟨e, by simp, ?_⟩
      simp only [encode, List.mem_map] at h
      rcases h with ⟨c, hc, hr⟩
      refine ⟨by rw [← hr], c, hc, by rw [← hr]⟩
    · rcases ih h with ⟨e', he', hr⟩
      exact ⟨e', by simp [he'], hr⟩

theorem wfHistory_tail {e : Nat × ChangeSet} {rest : List (Nat × ChangeSet)}
    (h : wfHistory (e :: rest)) : wfHistory rest := by
  obtain ⟨hpw, hall⟩ := h
  rw [List.pairwise_cons] at hpw
  exact ⟨hpw.2, fun x hx => hall x (by simp [hx])⟩

theorem wfHistory_filter {hist : List (Nat × ChangeSet)} (hwf : wfHistory hist)
    (p : Nat × ChangeSet → Bool) : wfHistory (hist.filter p) :=
  ⟨hwf.1.filter p, fun e he => hwf.2 e (List.mem_of_mem_filter he)⟩

theorem dropWhile_historyStore {hist : List (Nat × ChangeSet)}
    (hwf : wfHistory hist) {lo : Nat} (hlo : lo < 2 ^ 64) :
    (historyStore hist).dropWhile (fun r => lexLt r.1 (dbKey lo)) =
      historyStore (hist.filter (fun e => decide (lo ≤ e.1))) := by
  induction hist with
  | nil => rfl
  | cons e rest ih =>
    obtain ⟨hpw, hall⟩ := hwf
    rw [List.pairwise_cons] at hpw
    have hwf' : wfHistory rest := ⟨hpw.2, fun x hx => hall x (by simp [hx])⟩
    have hb : e.1 < 2 ^ 64 := (hall e (by simp)).1
    by_cases hcase : e.1 < lo
    · have hgroup : ∀ r ∈ encode e.1 e.2, lexLt r.1 (dbKey lo) = true := by
        intro r hr
        simp only [encode, List.mem_map] at hr
        rcases hr with ⟨c, _, hrc⟩
        rw [← hrc, dbKey_lt_iff hb hlo]
        simpa using hcase
      show (encode e.1 e.2 ++ historyStore rest).dropWhile _ = _
      rw [dropWhile_append_of_all hgroup, ih hwf', List.filter_cons,
        if_neg (by simpa using Nat.not_le.mpr hcase)]
    · push_neg at hcase
      have hfail : ∀ r ∈ historyStore (e :: rest),
          lexLt r.1 (dbKey lo) = false := by
        intro r hr
        rcases mem_historyStore hr with ⟨e', he', hkey, _⟩
        have hb' : e'.1 < 2 ^ 64 := (hall e' he').1
        have hge : lo ≤ e'.1 := by
          rcases List.mem_cons.mp he' with h | h
          · rw [h]; exact hcase
          · exact le_trans hcase (le_of_lt (hpw.1 e' h))
        rw [hkey, dbKey_lt_iff hb' hlo]
        simpa using Nat.not_lt.mpr hge
      rw [dropWhile_eq_self_of_all hfail]
      have hkeep : (e :: rest).filter (fun e => decide (lo ≤ e.1)) = e :: rest := by
        rw [List.filter_eq_self]
        intro a ha
        have hge : lo ≤ a.1 := by
          rcases List.mem_cons.mp ha with h | h
          · rw [h]; exact hcase
          · exact le_trans hcase (le_of_lt (hpw.1 a h))
        simpa using hge
      rw [hkeep]

theorem takeWhile_historyStore {hist : List (Nat × ChangeSet)}
    (hwf : wfHistory hist) {hi : Nat} (hhi : hi < 2 ^ 64) :
    (historyStore hist).takeWhile (fun r => ! lexLt (dbKey hi) r.1) =
      historyStore (hist.filter (fun e => decide (e.1 ≤ hi))) := by
  induction hist with
  | nil => rfl
  | cons e rest ih =>
    obtain ⟨hpw, hall⟩ := hwf
    rw [List.pairwise_cons] at hpw
    have hwf' : wfHistory rest := ⟨hpw.2, fun x hx => hall x (by simp [hx])⟩
    have hb : e.1 < 2 ^ 64 := (hall e (by simp)).1
    by_cases hcase : e.1 ≤ hi
    · have hgroup : ∀ r ∈ encode e.1 e.2, (! lexLt (dbKey hi) r.1) = true := by
        intro r hr
        simp only [encode, List.mem_map] at hr
        rcases hr with ⟨c, _, hrc⟩
        rw [← hrc]
        simp only [Bool.not_eq_true']
        rw [dbKey_lt_iff hhi hb]
        simpa using Nat.not_lt.mpr hcase
      show (encode e.1 e.2 ++ historyStore rest).takeWhile _ = _
      rw [takeWhile_append_of_all hgroup, ih hwf', List.filter_cons,
        if_pos (by simpa using hcase)]
      rfl
    · push_neg at hcase
      have hfail : ∀ r ∈ historyStore (e :: rest),
          (! lexLt (dbKey hi) r.1) = false := by
        intro r hr
        rcases mem_historyStore hr with ⟨e', he', hkey, _⟩
        have hb' : e'.1 < 2 ^ 64 := (hall e' he').1
        have hgt : hi < e'.1 := by
          rcases List.mem_cons.mp he' with h | h
          · rw [h]; exact hcase
          · exact lt_trans hcase (hpw.1 e' h)
        rw [hkey]
        simp only [Bool.not_eq_false']
        rw [dbKey_lt_iff hhi hb']
        simpa using hgt
      rw [takeWhile_eq_nil_of_all hfail]
      have hdrop : (e :: rest).filter (fun e => decide (e.1 ≤ hi)) = [] := by
        rw [List.filter_eq_nil_iff]
        intro a ha
        have hgt : hi < a.1 := by
          rcases List.mem_cons.mp ha with h | h
          · rw [h]; exact hcase
          · exact lt_trans hcase (hpw.1 a h)
        simpa using Nat.not_le.mpr hgt
      rw [hdrop]
      rfl

theorem selectRange_historyStore {hist : List (Nat × ChangeSet)}
    (hwf : wfHistory hist) {lo hi : Nat} (hlo : lo < 2 ^ 64) (hhi : hi < 2 ^ 64) :
    selectRange (historyStore hist) lo hi =
      historyStore (hist.filter
        (fun e => decide (lo ≤ e.1) && decide (e.1 ≤ hi))) := by
  unfold selectRange
  rw [dropWhile_historyStore hwf hlo,
    takeWhile_historyStore (wfHistory_filter hwf _) hhi, List.filter_filter]
  congr 1
  apply List.filter_congr
  intro a _
  exact Bool.and_comm _ _

theorem exceptMapM_historyStore {hist : List (Nat × ChangeSet)}
    (hwf : wfHistory hist) :
    exceptMapM (fun r => from_account_db_format r.1 r.2) (historyStore hist) =
      .ok (historyTriples hist) := by
  induction hist with
  | nil => rfl
  | cons e rest ih =>
    have hb := (hwf.2 e (by simp)).1
    have hlen := (hwf.2 e (by simp)).2.2
    show exceptMapM _ (encode e.1 e.2 ++ historyStore rest) = _
    rw [historyTriples]
    exact exceptMapM_append _ (exceptMapM_encode hb hlen) (ih (wfHistory_tail hwf))

/-- The full walk characterization: over a well-formed stored history, the
walk succeeds and yields precisely the decoded records of the blocks in the
inclusive query range, in stored order. -/
theorem walk_historyStore {hist : List (Nat × ChangeSet)} (hwf : wfHistory hist)
    {lo hi : Nat} (hlo : lo < 2 ^ 64) (hhi : hi < 2 ^ 64) :
    walk (historyStore hist) lo hi =
      .ok (historyTriples (hist.filter
        (fun e => decide (lo ≤ e.1) && decide (e.1 ≤ hi)))) := by
  unfold walk
  rw [selectRange_historyStore hwf hlo hhi]
  exact exceptMapM_historyStore (wfHistory_filter hwf _)

/-! ### Point-lookup characterization -/

theorem mem_of_mem_dropWhile {α : Type} {p : α → Bool} {l : List α} {x : α}
    (h : x ∈ l.dropWhile p) : x ∈ l := by
  induction l with
  | nil => cases h
  | cons y ys ih =>
    rw [List.dropWhile_cons] at h
    by_cases hp : p y = true
    · rw [if_pos hp] at h
      exact List.mem_cons_of_mem _ (ih h)
    · rw [if_neg hp] at h
      exact h

theorem changeSetAt_mem : ∀ {hist : List (Nat × ChangeSet)} {b : Nat}
    {cs : ChangeSet}, changeSetAt hist b = some cs → (b, cs) ∈ hist := by
  intro hist
  induction hist with
  | nil => intro b cs h; cases h
  | cons e rest ih =>
    intro b cs h
    rw [changeSetAt] at h
    by_cases hcase : e.1 = b
    · rw [if_pos hcase] at h
      cases h
      subst hcase
      simp
    · rw [if_neg hcase] at h
      exact List.mem_cons_of_mem _ (ih h)

theorem filter_historyStore {hist : List (Nat × ChangeSet)} (hwf : wfHistory hist)
    {b : Nat} (hb : b < 2 ^ 64) :
    (historyStore hist).filter (fun r => decide (r.1 = dbKey b)) =
      (match changeSetAt hist b with
        | some cs => encode b cs
        | none => []) := by
  induction hist with
  | nil => rfl
  | cons e rest ih =>
    obtain ⟨hpw, hall⟩ := hwf
    rw [List.pairwise_cons] at hpw
    have hwf' : wfHistory rest := ⟨hpw.2, fun x hx => hall x (by simp [hx])⟩
    have hb' : e.1 < 2 ^ 64 := (hall e (by simp)).1
    show (encode e.1 e.2 ++ historyStore rest).filter _ = _
    rw [List.filter_append]
    by_cases hcase : e.1 = b
    · subst hcase
      have hgrp : (encode e.1 e.2).filter
          (fun r => decide (r.1 = dbKey e.1)) = encode e.1 e.2 := by
        rw [List.filter_eq_self]
        intro r hr
        simp only [encode, List.mem_map] at hr
        rcases hr with ⟨c, _, hrc⟩
        rw [← hrc]
        simp
      have hrest : (historyStore rest).filter
          (fun r => decide (r.1 = dbKey e.1)) = [] := by
        rw [List.filter_eq_nil_iff]
        intro r hr
        rcases mem_historyStore hr with ⟨e', he', hkey, _⟩
        have hlt : e.1 < e'.1 := hpw.1 e' he'
        have hb'' : e'.1 < 2 ^ 64 := (hall e' (by simp [he'])).1
        rw [hkey]
        simp only [decide_eq_true_eq]
        intro heq
        have := dbKey_inj hb'' hb' heq
        omega
      rw [hgrp, hrest, List.append_nil, changeSetAt, if_pos rfl]
    · have hgrp : (encode e.1 e.2).filter
          (fun r => decide (r.1 = dbKey b)) = [] := by
        rw [List.filter_eq_nil_iff]
        intro r hr
        simp only [encode, List.mem_map] at hr
        rcases hr with ⟨c, _, hrc⟩
        rw [← hrc]
        simp only [decide_eq_true_eq]
        intro heq
        exact hcase (dbKey_inj hb' hb heq)
      rw [hgrp, List.nil_append, ih hwf', changeSetAt, if_neg hcase]

theorem findInVals_nil (b : Nat) (k : Bytes) : findInVals b k [] = .ok none := rfl

theorem findInVals_cons_stop {b : Nat} {k v : Bytes} (vs : List Bytes)
    (h : lexLt v k = false) : findInVals b k (v :: vs) = checkEntry b k v := by
  unfold findInVals
  rw [List.dropWhile_cons, h]
  rfl

theorem findInVals_cons_skip {b : Nat} {k v : Bytes} (vs : List Bytes)
    (h : lexLt v k = true) : findInVals b k (v :: vs) = findInVals b k vs := by
  unfold findInVals
  rw [List.dropWhile_cons, if_pos h]

theorem checkEntry_decoded {b bn : Nat} {k v k1 val : Bytes}
    (h : from_account_db_format (dbKey b) v = .ok (bn, k1, val)) :
    checkEntry b k v = .ok (if k1 = k then some val else none) := by
  unfold checkEntry
  rw [h]

/-- The in-group seek finds exactly the Change with the queried key, when
the group is canonical with fixed-width keys. -/
theorem findInVals_eq {b : Nat} (hb : b < 2 ^ 64) {cs : ChangeSet}
    (hcan : canonical cs) (hlen : ∀ c ∈ cs, c.key.length = ADDRESS_LENGTH)
    (k : Bytes) :
    findInVals b k (cs.map (fun c => c.key ++ c.value)) =
      .ok ((cs.find? (fun c => decide (c.key = k))).map Change.value) := by
  by_cases hk : k.length = ADDRESS_LENGTH
  · induction cs with
    | nil => rfl
    | cons c cs ih =>
      simp only [canonical, List.pairwise_cons] at hcan
      rcases hcan with ⟨hx, hcs⟩
      have hck : c.key.length = ADDRESS_LENGTH := hlen c (by simp)
      have hdec : from_account_db_format (dbKey b) (c.key ++ c.value) =
          .ok (b, c.key, c.value) := decode_encode hb hck c.value
      by_cases hEq : c.key = k
      · have hhead : lexLt (c.key ++ c.value) k = false := by
          rw [hEq]
          exact lexLt_append_self k c.value
        rw [List.map_cons, findInVals_cons_stop _ hhead, checkEntry_decoded hdec,
          List.find?_cons_of_pos _ (by simp [hEq])]
        simp [hEq]
      · by_cases hLt : lexLt c.key k
        · have hhead : lexLt (c.key ++ c.value) k = true := by
            have := lexLt_append_of_lt (by rw [hck, hk]) hLt c.value []
            rwa [List.append_nil] at this
          rw [List.map_cons, findInVals_cons_skip _ hhead,
            List.find?_cons_of_neg _ (by simp [hEq])]
          exact ih hcs (fun c' hc' => hlen c' (by simp [hc']))
        · have hgt : lexLt k c.key = true :=
            lexLt_total hEq (by simpa using hLt)
          have hhead : lexLt (c.key ++ c.value) k = false :=
            lexLt_append_of_gt (by rw [hck, hk]) hgt c.value
          rw [List.map_cons, findInVals_cons_stop _ hhead, checkEntry_decoded hdec,
            List.find?_cons_of_neg _ (by simp [hEq])]
          have hnone : cs.find? (fun c => decide (c.key = k)) = none := by
            rw [List.find?_eq_none]
            intro c' hc'
            simp only [decide_eq_true_eq]
            intro heq
            have h1 : lexLt k c'.key = true := lexLt_trans hgt (hx c' hc')
            rw [heq, lexLt_irrefl] at h1
            exact Bool.false_ne_true h1
          simp [hEq, hnone]
  · have hnone : cs.find? (fun c => decide (c.key = k)) = none := by
      rw [List.find?_eq_none]
      intro c hc
      simp only [decide_eq_true_eq]
      intro heq
      exact hk (by rw [← heq]; exact hlen c hc)
    rw [hnone]
    unfold findInVals
    cases hdw : (cs.map (fun c => c.key ++ c.value)).dropWhile
        (fun v => lexLt v k) with
    | nil => rfl
    | cons v rest =>
      have hv : v ∈ cs.map (fun c => c.key ++ c.value) :=
        mem_of_mem_dropWhile (by rw [hdw]; simp)
      simp only [List.mem_map] at hv
      rcases hv with ⟨c, hc, hvc⟩
      have hdec : from_account_db_format (dbKey b) v = .ok (b, c.key, c.value) := by
        rw [← hvc]
        exact decode_encode hb (hlen c hc) c.value
      show checkEntry b k v = Except.ok (Option.map Change.value none)
      rw [checkEntry_decoded hdec]
      have hne : c.key ≠ k := fun heq => hk (by rw [← heq]; exact hlen c hc)
      simp [hne]

theorem find_spec_lookup_eq (hist : List (Nat × ChangeSet)) (b : Nat) (k : Bytes) :
    find_spec_lookup hist b k = (changeSetAt hist b).bind
      (fun cs => (cs.find? (fun c => decide (c.key = k))).map Change.value) := by
  unfold find_spec_lookup
  cases changeSetAt hist b <;> rfl

instance wfChangeSet_decidable (s : ChangeSet) : Decidable (wfChangeSet s) := by
  unfold wfChangeSet
  infer_instance

instance wfHistory_decidable (hist : List (Nat × ChangeSet)) :
    Decidable (wfHistory hist) := by
  unfold wfHistory
  infer_instance

/-- The full point-lookup characterization over a well-formed history. -/
theorem find_historyStore {hist : List (Nat × ChangeSet)} (hwf : wfHistory hist)
    {b : Nat} (hb : b < 2 ^ 64) (k : Bytes) :
    find_in_account_changeset (historyStore hist) b k =
      .ok (find_spec_lookup hist b k) := by
  unfold find_in_account_changeset find_spec_lookup
  rw [filter_historyStore hwf hb]
  cases hcs : changeSetAt hist b with
  | none => rfl
  | some cs =>
    have hmem : (b, cs) ∈ hist := changeSetAt_mem hcs
    have hwfc := (hwf.2 _ hmem).2
    have hvals : (encode b cs).map Prod.snd =
        cs.map (fun c => c.key ++ c.value) := by
      simp [encode, List.map_map, Function.comp]
    rw [hvals]
    exact findInVals_eq hb hwfc.1 hwfc.2 k

/-! ### Ordering of the walk output -/

theorem mem_historyTriples {hist : List (Nat × ChangeSet)} {x : Nat × Bytes × Bytes}
    (h : x ∈ historyTriples hist) :
    ∃ e ∈ hist, x.1 = e.1 ∧ ∃ c ∈ e.2, x = (e.1, c.key, c.value) := by
  induction hist with
  | nil => cases h
  | cons e rest ih =>
    simp only [historyTriples, List.mem_append] at h
    rcases h with h | h
    · simp only [List.mem_map] at h
      rcases h with ⟨c, hc, hxc⟩
      exact ⟨e, by simp, by rw [← hxc], c, hc, hxc.symm⟩
    · rcases ih h with ⟨e', he', hr⟩
      exact ⟨e', by simp [he'], hr⟩

theorem historyTriples_sorted {hist : List (Nat × ChangeSet)} (hwf : wfHistory hist) :
    (historyTriples hist).Pairwise
      (fun x y => x.1 < y.1 ∨ (x.1 = y.1 ∧ lexLt x.2.1 y.2.1 = true)) := by
  induction hist with
  | nil => simp [historyTriples]
  | cons e rest ih =>
    obtain ⟨hpw, hall⟩ := hwf
    rw [List.pairwise_cons] at hpw
    show ((e.2.map fun c => (e.1, c.key, c.value)) ++ historyTriples rest).Pairwise _
    rw [List.pairwise_append]
    refine ⟨?_, ih ⟨hpw.2, fun x hx => hall x (by simp [hx])⟩, ?_⟩
    · rw [List.pairwise_map]
      have hcan := (hall e (by simp)).2.1
      exact hcan.imp (fun h => Or.inr ⟨rfl, h⟩)
    · intro x hx y hy
      simp only [List.mem_map] at hx
      rcases hx with ⟨c, _, hxc⟩
      rcases mem_historyTriples hy with ⟨e', he', hblock, _⟩
      left
      rw [← hxc, hblock]
      exact hpw.1 e' he'

theorem mem_historyTriples_of_mem {hist : List (Nat × ChangeSet)}
    {e : Nat × ChangeSet} (he : e ∈ hist) {c : Change} (hc : c ∈ e.2) :
    (e.1, c.key, c.value) ∈ historyTriples hist := by
  induction hist with
  | nil => cases he
  | cons f rest ih =>
    show (e.1, c.key, c.value) ∈
      (f.2.map fun c => (f.1, c.key, c.value)) ++ historyTriples rest
    rcases List.mem_cons.mp he with h | h
    · subst h
      exact List.mem_append_left _ (List.mem_map.mpr ⟨c, hc, rfl⟩)
    · exact List.mem_append_right _ (ih h)

theorem historyTriples_nil {hist : List (Nat × ChangeSet)}
    (h : ∀ e ∈ hist, e.2 = []) : historyTriples hist = [] := by
  induction hist with
  | nil => rfl
  | cons e rest ih =>
    show (e.2.map fun c => (e.1, c.key, c.value)) ++ historyTriples rest = []
    rw [h e (by simp), ih (fun x hx => h x (by simp [hx]))]
    rfl

/-! ### The fixed-width key copy inside the account walk adapter -/

/-- The Rust `copy_from_slice` into a zero-initialized fixed-width buffer:
it panics (`none`) unless the source length matches the destination length,
and otherwise replaces the whole destination by the source. -/
def copy_from_slice (dst src : Bytes) : Option Bytes :=
  if src.length = dst.length then some src else none

/-- The decode adapter inside `AccountChangeSetPlain::walk`
(src/changeset/account.rs lines 20-25): after `from_account_db_format`, the
key slice is copied by `copy_from_slice` into `[0; ADDRESS_LENGTH]`; the
adapter has no error branch of its own — a wrong-length key can only panic
(`none`). -/
def account_walk_adapter (b : Nat) (k1 v : Bytes) : Option (Nat × Bytes × Bytes) :=
  (copy_from_slice (List.replicate ADDRESS_LENGTH 0) k1).map (fun k => (b, k, v))

/-! ### Concrete scenario data (spec §8, property 6) -/

def addrA : Bytes := List.replicate 19 0 ++ [1]

def addrB : Bytes := List.replicate 19 0 ++ [2]

def val1 : Bytes := [10]

def val2 : Bytes := [20]

def val3 : Bytes := [30]

/-- ChangeSet `{A: v1, B: v2}` at block 1 and `{A: v3}` at block 2. -/
def histEx : List (Nat × ChangeSet) :=
  [(1, [Change.mk addrA val1, Change.mk addrB val2]), (2, [Change.mk addrA val3])]

def storeEx : List (Bytes × Bytes) := historyStore histEx

/-! ### Sentry status conversion (src/sentry/eth.rs) -/

/-- Model of `ethereum_interfaces::sentry::Forks`: optional genesis hash plus the
fork-block list. Hashes and difficulties are modelled as naturals; the
protobuf-to-ethereum `into()` conversions are injective re-wrappings,
modelled as the identity. -/
structure SentryForks where
  genesis : Option Nat
  forks : List Nat
deriving DecidableEq, Repr

/-- Model of `ethereum_interfaces::sentry::StatusData`, the input message. -/
structure SentryStatusData where
  network_id : Nat
  total_difficulty : Option Nat
  best_hash : Option Nat
  fork_data : Option SentryForks
  max_block : Nat
deriving DecidableEq, Repr

/-- Model of `Forks` of eth.rs: genesis plus a `BTreeSet<u64>` of fork blocks,
modelled as a sorted duplicate-free list. -/
structure Forks where
  genesis : Nat
  forks : List Nat
deriving DecidableEq, Repr

/-- Model of `StatusData` of eth.rs. -/
structure StatusData where
  network_id : Nat
  total_difficulty : Nat
  best_hash : Nat
  fork_data : Forks
deriving DecidableEq, Repr

/-- Model of `ForkFilter::new(max_block, genesis, forks)`: it comes from the external
`ethereum_forkid` crate; modelled opaquely as the record of its
construction arguments. -/
structure ForkFilter where
  max_block : Nat
  genesis : Nat
  forks : List Nat
deriving DecidableEq, Repr

/-- Model of `FullStatusData` of eth.rs. -/
structure FullStatusData where
  status : StatusData
  fork_filter : ForkFilter
deriving DecidableEq, Repr

/-- The four `anyhow!` error messages of `FullStatusData::try_from`. -/
inductive StatusConvError where
  | noForkData
  | noGenesis
  | noTotalDifficulty
  | noBestHash
deriving DecidableEq, Repr

/-- Sorted duplicate-free insertion: the effect of collecting into a
`BTreeSet<u64>`. -/
def insertSortedNat (x : Nat) : List Nat → List Nat
  | [] => [x]
  | y :: ys =>
    if x < y then x :: y :: ys
    else if x = y then y :: ys
    else y :: insertSortedNat x ys

/-- Model of `collect()` of an iterator of `u64` into a `BTreeSet<u64>`. -/
def btreeSetOfList (l : List Nat) : List Nat :=
  l.foldl (fun s x => insertSortedNat x s) []

/-- Model of `FullStatusData::try_from(ethereum_interfaces::sentry::StatusData)`
(src/sentry/eth.rs lines 78-114): unwraps `fork_data`, then its `genesis`,
builds the fork filter, then unwraps `total_difficulty` and `best_hash`,
erroring on the first absent field. -/
def FullStatusData.try_from (value : SentryStatusData) :
    Except StatusConvError FullStatusData :=
  match value.fork_data with
  | none => .error .noForkData
  | some fork_data =>
    match fork_data.genesis with
    | none => .error .noGenesis
    | some genesis =>
      let fork_filter : ForkFilter := ⟨value.max_block, genesis, fork_data.forks⟩
      match value.total_difficulty with
      | none => .error .noTotalDifficulty
      | some td =>
        match value.best_hash with
        | none => .error .noBestHash
        | some bh =>
          .ok ⟨⟨value.network_id, td, bh,
            ⟨genesis, btreeSetOfList fork_data.forks⟩⟩, fork_filter⟩

theorem mem_insertSortedNat {x k : Nat} : ∀ {l : List Nat},
    k ∈ insertSortedNat x l ↔ k = x ∨ k ∈ l := by
  intro l
  induction l with
  | nil => simp [insertSortedNat]
  | cons y ys ih =>
    unfold insertSortedNat
    by_cases h1 : x < y
    · rw [if_pos h1]
      simp only [List.mem_cons]
    · by_cases h2 : x = y
      · rw [if_neg h1, if_pos h2]
        simp only [List.mem_cons]
        subst h2
        tauto
      · rw [if_neg h1, if_neg h2]
        simp only [List.mem_cons, ih]
        tauto

theorem mem_btreeSetOfList (l : List Nat) (k : Nat) :
    k ∈ btreeSetOfList l ↔ k ∈ l := by
  suffices h : ∀ (l s : List Nat) (k : Nat),
      (k ∈ List.foldl (fun s x => insertSortedNat x s) s l ↔ k ∈ s ∨ k ∈ l) by
    have := h l [] k
    simpa [btreeSetOfList] using this
  intro l
  induction l with
  | nil => simp
  | cons x xs ih =>
    intro s k
    show k ∈ List.foldl _ (insertSortedNat x s) xs ↔ _
    rw [ih]
    simp only [mem_insertSortedNat, List.mem_cons]
    tauto

/-! ### The claims -/

/-- C1 (round-trip): for every `u64` block number `b` and every
duplicate-key-free insertion sequence of fixed-width-key Changes, decoding
all `(db_key, db_value)` pairs produced by `encode(b, s)` succeeds, and
re-inserting the decoded (key, value) pairs reconstructs a ChangeSet equal
to `s`; moreover `s` itself is independent of the insertion order used to
build it. -/
theorem claim_roundtrip (b : Nat) (hb : b < 2 ^ 64) (l lperm : List Change)
    (hnodup : (l.map Change.key).Nodup)
    (hlen : ∀ c ∈ l, c.key.length = ADDRESS_LENGTH)
    (hperm : lperm.Perm l) :
    exceptMapM (fun r => from_account_db_format r.1 r.2)
        (encode b (changeSetOfList l)) =
      .ok ((changeSetOfList l).map (fun c => (b, c.key, c.value)))
    ∧ changeSetOfList
        (((changeSetOfList l).map (fun c => (b, c.key, c.value))).map
          (fun t => Change.mk t.2.1 t.2.2)) = changeSetOfList l
    ∧ changeSetOfList lperm = changeSetOfList l := by
  have hkeysub : ∀ c ∈ changeSetOfList l, c.key.length = ADDRESS_LENGTH :=
    fun c hc => hlen c (mem_changeSetOfList_sub hc)
  refine ⟨exceptMapM_encode hb hkeysub, ?_, ?_⟩
  · have hmm : (((changeSetOfList l).map (fun c => (b, c.key, c.value))).map
        (fun t => Change.mk t.2.1 t.2.2)) = changeSetOfList l := by
      rw [List.map_map]
      exact List.map_id _
    rw [hmm]
    exact changeSetOfList_of_canonical (changeSetOfList_canonical l)
  · have hnd' : (lperm.map Change.key).Nodup := by
      rw [List.Perm.nodup_iff (List.Perm.map Change.key hperm)]
      exact hnodup
    have h1 : (changeSetOfList lperm).Perm (changeSetOfList l) :=
      ((changeSetOfList_perm hnd').trans hperm).trans
        (changeSetOfList_perm hnodup).symm
    haveI : IsAntisymm Change (fun a b => lexLt a.key b.key = true) := by
      constructor
      intro a b hab hba
      rw [lexLt_asymm hab] at hba
      exact absurd hba Bool.false_ne_true
    exact List.eq_of_perm_of_sorted h1 (changeSetOfList_canonical lperm)
      (changeSetOfList_canonical l)

theorem claim_roundtrip_witness :
    changeSetOfList [Change.mk addrB val2, Change.mk addrA val1] =
      changeSetOfList [Change.mk addrA val1, Change.mk addrB val2] :=
  (claim_roundtrip 1 (by norm_num) [Change.mk addrA val1, Change.mk addrB val2]
    [Change.mk addrB val2, Change.mk addrA val1] (by decide) (by decide)
    (by decide)).2.2

/-- C2 (find exactness): over any well-formed stored history, `find`
returns exactly the looked-up value of the spec — the recorded prior value
when the ChangeSet recorded at exactly block `b` contains key `k`, and
absence for any other block or key; and that lookup yields `some v` iff the
ChangeSet at exactly block `b` contains the Change `(k, v)`. -/
theorem claim_find_exact (hist : List (Nat × ChangeSet)) (hwf : wfHistory hist)
    (b : Nat) (hb : b < 2 ^ 64) (k : Bytes) :
    find_in_account_changeset (historyStore hist) b k =
        .ok (find_spec_lookup hist b k)
    ∧ ∀ v, find_spec_lookup hist b k = some v ↔
        ∃ cs, changeSetAt hist b = some cs ∧ Change.mk k v ∈ cs := by
  refine ⟨find_historyStore hwf hb k, ?_⟩
  intro v
  rw [find_spec_lookup_eq]
  cases hcs : changeSetAt hist b with
  | none => simp
  | some cs =>
    simp only [Option.some_bind]
    have hwfc := (hwf.2 _ (changeSetAt_mem hcs)).2
    have hnd : (cs.map Change.key).Nodup := canonical_keys_nodup hwfc.1
    constructor
    · intro hv
      rcases Option.map_eq_some'.mp hv with ⟨c, hfind, hval⟩
      have hc : c ∈ cs := List.mem_of_find?_eq_some hfind
      have hkey : c.key = k := by simpa using List.find?_some hfind
      refine ⟨cs, rfl, ?_⟩
      have hck : c = Change.mk k v := by
        cases c
        simp only [Change.mk.injEq]
        exact ⟨hkey, hval⟩
      rwa [hck] at hc
    · rintro ⟨cs', hcs', hmem⟩
      injection hcs' with hcseq
      subst hcseq
      cases hfind : cs.find? (fun c => decide (c.key = k)) with
      | none =>
        exfalso
        have := List.find?_eq_none.mp hfind _ hmem
        simp at this
      | some c =>
        have hc : c ∈ cs := List.mem_of_find?_eq_some hfind
        have hkey : c.key = k := by simpa using List.find?_some hfind
        have hck : c = Change.mk k v :=
          List.inj_on_of_nodup_map hnd hc hmem (by rw [hkey])
        rw [hck]
        rfl

theorem claim_find_exact_witness :
    find_in_account_changeset (historyStore histEx) 2 addrA =
      .ok (find_spec_lookup histEx 2 addrA) :=
  (claim_find_exact histEx (by decide) 2 (by norm_num) addrA).1

/-- C3 (corrupt input rejection): decoding a `db_value` shorter than the
fixed key width of the bucket fails with `CorruptData`, and such a failing record
inside the selected range of a walk aborts the whole traversal with that error
instead of skipping the record. -/
theorem claim_corrupt_rejection :
    (∀ dbK dbV : Bytes, dbV.length < ADDRESS_LENGTH →
        from_account_db_format dbK dbV = .error .CorruptData)
    ∧ ∀ (store : List (Bytes × Bytes)) (lo hi : Nat) (r : Bytes × Bytes),
        r ∈ selectRange store lo hi → r.2.length < ADDRESS_LENGTH →
        walk store lo hi = .error .CorruptData := by
  have hshort : ∀ dbK dbV : Bytes, dbV.length < ADDRESS_LENGTH →
      from_account_db_format dbK dbV = .error .CorruptData := by
    intro dbK dbV h
    unfold from_account_db_format
    rw [if_neg (by rintro ⟨-, hle⟩; omega)]
  refine ⟨hshort, ?_⟩
  intro store lo hi r hr hshortr
  unfold walk
  exact exceptMapM_error_of_mem hr (hshort r.1 r.2 hshortr)

theorem claim_corrupt_rejection_witness :
    from_account_db_format (dbKey 0) [1] = .error .CorruptData
    ∧ walk [(dbKey 0, [1])] 0 0 = .error .CorruptData :=
  ⟨claim_corrupt_rejection.1 (dbKey 0) [1] (by decide),
   claim_corrupt_rejection.2 [(dbKey 0, [1])] 0 0 (dbKey 0, [1]) (by decide)
     (by decide)⟩

/-- C4 (walk monotonicity): over a well-formed stored history, for any
`u64` range bounds `lo <= hi` the walk succeeds with a finite output whose
block numbers are non-decreasing, all within the inclusive range, with the
duplicate entries of each block in ascending embedded-key order, containing
every duplicate entry of every block in the range, and which is empty when
no block in range recorded any Change. -/
theorem claim_walk_monotone (hist : List (Nat × ChangeSet)) (hwf : wfHistory hist)
    (lo hi : Nat) (hlo : lo < 2 ^ 64) (hhi : hi < 2 ^ 64) (hle : lo ≤ hi) :
    ∃ out, walk (historyStore hist) lo hi = .ok out
    ∧ out.Pairwise (fun x y => x.1 ≤ y.1)
    ∧ (∀ x ∈ out, lo ≤ x.1 ∧ x.1 ≤ hi)
    ∧ out.Pairwise (fun x y => x.1 = y.1 → lexLt x.2.1 y.2.1 = true)
    ∧ (∀ e ∈ hist, lo ≤ e.1 → e.1 ≤ hi →
        ∀ c ∈ e.2, (e.1, c.key, c.value) ∈ out)
    ∧ ((∀ e ∈ hist, lo ≤ e.1 → e.1 ≤ hi → e.2 = []) → out = []) := by
  have hwff := wfHistory_filter hwf
    (fun e => decide (lo ≤ e.1) && decide (e.1 ≤ hi))
  have hsorted := historyTriples_sorted hwff
  refine ⟨_, walk_historyStore hwf hlo hhi, ?_, ?_, ?_, ?_, ?_⟩
  · exact hsorted.imp (fun h => by
      rcases h with h | ⟨h, -⟩
      · exact le_of_lt h
      · exact le_of_eq h)
  · intro x hx
    rcases mem_historyTriples hx with ⟨e, he, hblock, -⟩
    have hcond : lo ≤ e.1 ∧ e.1 ≤ hi := by
      simpa using (List.mem_filter.mp he).2
    rw [hblock]
    exact hcond
  · exact hsorted.imp (fun h heq => by
      rcases h with h | ⟨-, h⟩
      · omega
      · exact h)
  · intro e he hlo' hhi' c hc
    exact mem_historyTriples_of_mem
      (List.mem_filter.mpr ⟨he, by simpa using And.intro hlo' hhi'⟩) hc
  · intro hempty
    apply historyTriples_nil
    intro e he
    have hm := List.mem_filter.mp he
    have hcond : lo ≤ e.1 ∧ e.1 ≤ hi := by simpa using hm.2
    exact hempty e hm.1 hcond.1 hcond.2

theorem claim_walk_monotone_witness :
    ∃ out, walk (historyStore histEx) 1 2 = .ok out
    ∧ out.Pairwise (fun x y => x.1 ≤ y.1)
    ∧ (∀ x ∈ out, 1 ≤ x.1 ∧ x.1 ≤ 2)
    ∧ out.Pairwise (fun x y => x.1 = y.1 → lexLt x.2.1 y.2.1 = true)
    ∧ (∀ e ∈ histEx, 1 ≤ e.1 → e.1 ≤ 2 →
        ∀ c ∈ e.2, (e.1, c.key, c.value) ∈ out)
    ∧ ((∀ e ∈ histEx, 1 ≤ e.1 → e.1 ≤ 2 → e.2 = []) → out = []) :=
  claim_walk_monotone histEx (by decide) 1 2 (by norm_num) (by norm_num)
    (by norm_num)

/-- C5 (concrete scenario): with ChangeSet `{A: v1, B: v2}` at block 1
and `{A: v3}` at block 2 in one bucket and `A < B`, `walk(1, 2)` yields
`[(1, A, v1), (1, B, v2), (2, A, v3)]` in that order, `find(1, A) = v1`,
`find(2, A) = v3`, `find(2, B)` is absent and `find(3, A)` is absent. -/
theorem claim_concrete_scenario :
    lexLt addrA addrB = true
    ∧ walk storeEx 1 2 =
        .ok [(1, addrA, val1), (1, addrB, val2), (2, addrA, val3)]
    ∧ find_in_account_changeset storeEx 1 addrA = .ok (some val1)
    ∧ find_in_account_changeset storeEx 2 addrA = .ok (some val3)
    ∧ find_in_account_changeset storeEx 2 addrB = .ok none
    ∧ find_in_account_changeset storeEx 3 addrA = .ok none :=
  ⟨rfl, rfl, rfl, rfl, rfl, rfl⟩

/-- C6 (persisted layout): every record produced by `encode(b, s)` has
`db_key` equal to the 8-byte big-endian encoding of `b` — an encoding that
is strictly monotone, so numeric block order equals lexicographic byte
order — and `db_value` equal to the embedded key immediately followed by
the prior-value payload, with no length prefix. -/
theorem claim_encode_layout :
    (∀ (b : Nat) (s : ChangeSet) (r : Bytes × Bytes), r ∈ encode b s →
        r.1 = beBytes 8 b ∧ ∃ c ∈ s, r.2 = c.key ++ c.value)
    ∧ ∀ b1 b2 : Nat, b1 < b2 → b2 < 2 ^ 64 →
        lexLt (beBytes 8 b1) (beBytes 8 b2) = true := by
  constructor
  · intro b s r hr
    simp only [encode, List.mem_map] at hr
    rcases hr with ⟨c, hc, hrc⟩
    exact ⟨by rw [← hrc]; rfl, c, hc, by rw [← hrc]⟩
  · intro b1 b2 h1 h2
    exact beBytes_lt (w := 8) h1 (by norm_num at h2 ⊢; omega)

theorem claim_encode_layout_witness :
    ((dbKey 1, addrA ++ val1).1 = beBytes 8 1
      ∧ ∃ c ∈ [Change.mk addrA val1],
          (dbKey 1, addrA ++ val1).2 = c.key ++ c.value)
    ∧ lexLt (beBytes 8 1) (beBytes 8 2) = true :=
  ⟨claim_encode_layout.1 1 [Change.mk addrA val1] (dbKey 1, addrA ++ val1)
      (by simp [encode]),
    claim_encode_layout.2 1 2 (by norm_num) (by norm_num)⟩

/-- C7 (key uniqueness enforcement): a ChangeSet built by any
insertion sequence has duplicate-free keys, its encoding emits exactly one
record per Change, and its keys are exactly the distinct keys of the
inserted sequence — so inserting two Changes with the same key never
duplicates records in the encoded output. -/
theorem claim_encode_unique_keys (b : Nat) (l : List Change) :
    ((changeSetOfList l).map Change.key).Nodup
    ∧ (encode b (changeSetOfList l)).length = (changeSetOfList l).length
    ∧ ∀ k, k ∈ (changeSetOfList l).map Change.key ↔ k ∈ l.map Change.key := by
  refine ⟨canonical_keys_nodup (changeSetOfList_canonical l), ?_,
    keys_changeSetOfList l⟩
  simp [encode]

/-- C8 (absence is not an error): over a well-formed stored history,
when no Change with the queried key was recorded at exactly the queried
block, `find` returns the successful absent result `.ok none` rather than
a `CorruptData` or store error. -/
theorem claim_find_absence_ok (hist : List (Nat × ChangeSet)) (hwf : wfHistory hist)
    (b : Nat) (hb : b < 2 ^ 64) (k : Bytes)
    (habs : ∀ cs, changeSetAt hist b = some cs → ∀ c ∈ cs, c.key ≠ k) :
    find_in_account_changeset (historyStore hist) b k = .ok none := by
  rw [find_historyStore hwf hb k, find_spec_lookup_eq]
  cases hcs : changeSetAt hist b with
  | none => rfl
  | some cs =>
    have hnone : cs.find? (fun c => decide (c.key = k)) = none := by
      rw [List.find?_eq_none]
      intro c hc
      simpa using habs cs hcs c hc
    simp only [Option.some_bind]
    rw [hnone]
    rfl

theorem claim_find_absence_ok_witness :
    find_in_account_changeset (historyStore histEx) 2 addrB = .ok none :=
  claim_find_absence_ok histEx (by decide) 2 (by norm_num) addrB
    (by intro cs hcs; injection hcs with h; subst h; decide)

/-- C9 (walk adapter totality): the key returned by a successful
`from_account_db_format` always has length `ADDRESS_LENGTH`; under that
precondition the `copy_from_slice` adapter of `AccountChangeSetPlain::walk`
succeeds and yields the embedded key bitwise unchanged, while a
wrong-length key slice has no error branch — it can only panic. -/
theorem claim_walk_adapter_total :
    (∀ (dbK dbV : Bytes) (b : Nat) (k1 v : Bytes),
        from_account_db_format dbK dbV = .ok (b, k1, v) →
        k1.length = ADDRESS_LENGTH)
    ∧ (∀ (b : Nat) (k1 v : Bytes), k1.length = ADDRESS_LENGTH →
        account_walk_adapter b k1 v = some (b, k1, v))
    ∧ ∀ (b : Nat) (k1 v : Bytes), k1.length ≠ ADDRESS_LENGTH →
        account_walk_adapter b k1 v = none := by
  refine ⟨?_, ?_, ?_⟩
  · intro dbK dbV b k1 v h
    unfold from_account_db_format at h
    by_cases hc : dbK.length = 8 ∧ ADDRESS_LENGTH ≤ dbV.length
    · rw [if_pos hc] at h
      cases h
      simp only [List.length_take]
      omega
    · rw [if_neg hc] at h
      cases h
  · intro b k1 v h
    unfold account_walk_adapter copy_from_slice
    rw [if_pos (by simp [h])]
    rfl
  · intro b k1 v h
    unfold account_walk_adapter copy_from_slice
    rw [if_neg (by simp [h])]
    rfl

theorem claim_walk_adapter_total_witness :
    account_walk_adapter 1 addrA val1 = some (1, addrA, val1)
    ∧ account_walk_adapter 1 [0] val1 = none :=
  ⟨claim_walk_adapter_total.2.1 1 addrA val1 (by decide),
   claim_walk_adapter_total.2.2 1 [0] val1 (by decide)⟩

/-- C10 (status conversion): `FullStatusData::try_from` errors exactly
when `fork_data`, its `genesis`, `total_difficulty` or `best_hash` is
absent; on success the status carries the input `network_id` unchanged,
the converted total difficulty, best hash and genesis, and a fork set equal
(as a set) to the fork list of the input. -/
theorem claim_full_status_try_from (value : SentryStatusData) :
    ((∃ e, FullStatusData.try_from value = .error e) ↔
      (value.fork_data = none
        ∨ (∃ fd, value.fork_data = some fd ∧ fd.genesis = none)
        ∨ value.total_difficulty = none
        ∨ value.best_hash = none))
    ∧ ∀ out, FullStatusData.try_from value = .ok out →
        out.status.network_id = value.network_id
        ∧ some out.status.total_difficulty = value.total_difficulty
        ∧ some out.status.best_hash = value.best_hash
        ∧ ∃ fd, value.fork_data = some fd
          ∧ some out.status.fork_data.genesis = fd.genesis
          ∧ ∀ x, x ∈ out.status.fork_data.forks ↔ x ∈ fd.forks := by
  obtain ⟨nid, td, bh, fd, mb⟩ := value
  cases fd with
  | none =>
    constructor
    · simp [FullStatusData.try_from]
    · intro out h
      simp [FullStatusData.try_from] at h
  | some fdv =>
    obtain ⟨gen, forks⟩ := fdv
    cases gen with
    | none =>
      constructor
      · simp [FullStatusData.try_from]
      · intro out h
        simp [FullStatusData.try_from] at h
    | some g =>
      cases td with
      | none =>
        constructor
        · simp [FullStatusData.try_from]
        · intro out h
          simp [FullStatusData.try_from] at h
      | some tdv =>
        cases bh with
        | none =>
          constructor
          · simp [FullStatusData.try_from]
          · intro out h
            simp [FullStatusData.try_from] at h
        | some bhv =>
          constructor
          · simp [FullStatusData.try_from]
          · intro out h
            simp only [FullStatusData.try_from] at h
            cases h
            refine ⟨rfl, rfl, rfl, ⟨some g, forks⟩, rfl, rfl, ?_⟩
            intro x
            exact mem_btreeSetOfList forks x

/-- A fully-populated example sentry status message. -/
def sentryExample : SentryStatusData :=
  ⟨7, some 100, some 5, some ⟨some 3, [2, 1, 2]⟩, 9⟩

/-- The conversion result of `sentryExample`. -/
def sentryExampleOut : FullStatusData :=
  ⟨⟨7, 100, 5, ⟨3, [1, 2]⟩⟩, ⟨9, 3, [2, 1, 2]⟩⟩

theorem claim_full_status_try_from_witness :
    sentryExampleOut.status.network_id = sentryExample.network_id
    ∧ some sentryExampleOut.status.total_difficulty =
        sentryExample.total_difficulty
    ∧ some sentryExampleOut.status.best_hash = sentryExample.best_hash
    ∧ ∃ fd, sentryExample.fork_data = some fd
      ∧ some sentryExampleOut.status.fork_data.genesis = fd.genesis
      ∧ ∀ x, x ∈ sentryExampleOut.status.fork_data.forks ↔ x ∈ fd.forks :=
  (claim_full_status_try_from sentryExample).2 sentryExampleOut (by rfl)

end Akula
